import Mathlib

/-!
Verification of the `Joint` class of `bvhio` (`src/bvhio/lib/hierarchy/Joint.py`)
against its natural-language specification.

The embedding below translates the keyframe store, the tree-recursive
operations and the rest-pose machinery of `Joint.py` into Lean.  Machine
floats of the source are modelled as exact rationals (`ℚ`), Python `int`
as `ℤ`, Python lists as `List`.  The external math layer (`glm` vectors,
quaternions, and the `SpatialTransform` `Pose`/`Transform` classes) is an
outside dependency of the repository; the small part of it the claims
touch is modelled from the spec (§3, §6) and the standard `glm`
semantics, each such definition saying so in its doc comment.
-/

namespace Bvhio

/-- 3-component vector of the external `glm` layer (spec §6), with exact
rational components in place of floats. -/
structure Vec3 where
  x : ℚ
  y : ℚ
  z : ℚ
deriving DecidableEq

/-- Quaternion of the external `glm` layer (spec §6), `w` first as in glm. -/
structure Quat where
  w : ℚ
  x : ℚ
  y : ℚ
  z : ℚ
deriving DecidableEq

def Vec3.zero : Vec3 := ⟨0, 0, 0⟩

def Vec3.one : Vec3 := ⟨1, 1, 1⟩

def Vec3.add (a b : Vec3) : Vec3 := ⟨a.x + b.x, a.y + b.y, a.z + b.z⟩

def Vec3.sub (a b : Vec3) : Vec3 := ⟨a.x - b.x, a.y - b.y, a.z - b.z⟩

/-- Component-wise (Hadamard) product, `glm` `vec3 * vec3`. -/
def Vec3.hmul (a b : Vec3) : Vec3 := ⟨a.x * b.x, a.y * b.y, a.z * b.z⟩

/-- Component-wise quotient, `glm` `vec3 / vec3`. -/
def Vec3.hdiv (a b : Vec3) : Vec3 := ⟨a.x / b.x, a.y / b.y, a.z / b.z⟩

/-- `glm.lerp` on vectors: `x + (y - x) * a`, component-wise. -/
def Vec3.lerp (a b : Vec3) (t : ℚ) : Vec3 :=
  ⟨a.x + (b.x - a.x) * t, a.y + (b.y - a.y) * t, a.z + (b.z - a.z) * t⟩

/-- The identity quaternion `(1,0,0,0)`. -/
def Quat.one : Quat := ⟨1, 0, 0, 0⟩

/-- Hamilton product, `glm` `quat * quat`. -/
def Quat.mul (p q : Quat) : Quat :=
  ⟨p.w * q.w - p.x * q.x - p.y * q.y - p.z * q.z,
   p.w * q.x + p.x * q.w + p.y * q.z - p.z * q.y,
   p.w * q.y - p.x * q.z + p.y * q.w + p.z * q.x,
   p.w * q.z + p.x * q.y - p.y * q.x + p.z * q.w⟩

def Quat.norm2 (q : Quat) : ℚ := q.w * q.w + q.x * q.x + q.y * q.y + q.z * q.z

/-- `glm.inverse` on quaternions: the conjugate divided by the squared norm. -/
def Quat.inv (q : Quat) : Quat :=
  ⟨q.w / q.norm2, -q.x / q.norm2, -q.y / q.norm2, -q.z / q.norm2⟩

/-- `glm.lerp` on quaternions: component-wise linear interpolation
(`glm.lerp`, not `glm.slerp`). -/
def Quat.lerp (p q : Quat) (t : ℚ) : Quat :=
  ⟨p.w + (q.w - p.w) * t, p.x + (q.x - p.x) * t,
   p.y + (q.y - p.y) * t, p.z + (q.z - p.z) * t⟩

/-- Rotation of a vector by a quaternion, `glm` `quat * vec3`:
the vector part of `q * (0, v) * q⁻¹`. -/
def Quat.rotate (q : Quat) (v : Vec3) : Vec3 :=
  let r := q.mul ((Quat.mk 0 v.x v.y v.z).mul q.inv)
  ⟨r.x, r.y, r.z⟩

/-- `Pose` of the external `SpatialTransform` layer (spec §3): local
position, rotation and scale.  `duplicate()` is a deep copy, which in
this value-level model is the identity; the aliasing behaviour it exists
for is modelled separately for claim C9. -/
structure Pose where
  Position : Vec3
  Rotation : Quat
  Scale : Vec3
deriving DecidableEq

/-- The default `Pose()`: zero position, identity rotation, unit scale
(spec §4.1 "default/identity Pose"). -/
def Pose.default : Pose := ⟨Vec3.zero, Quat.one, Vec3.one⟩

/-- The local-space map of a position/rotation/scale triple applied to a
vector: `position + rotation ⬝ (scale * v)` (the TRS matrix of the
external layer acting on a point).  `Pose.Space * v` and, for a joint
without a parent, `Transform.Space * v`, are this map (spec §6). -/
def spaceApply (position : Vec3) (rotation : Quat) (scale : Vec3) (v : Vec3) : Vec3 :=
  position.add (rotation.rotate (scale.hmul v))

/-- The inverse of `spaceApply`: `scale⁻¹ * (rotation⁻¹ ⬝ (v - position))`.
`Transform.SpaceInverse * v` for a joint without a parent (spec §6). -/
def spaceInvApply (position : Vec3) (rotation : Quat) (scale : Vec3) (v : Vec3) : Vec3 :=
  (Vec3.one.hdiv scale).hmul (rotation.inv.rotate (v.sub position))

/-- `pose.Space * v` for a `Pose` (spec §6). -/
def Pose.spaceApply (p : Pose) (v : Vec3) : Vec3 :=
  Bvhio.spaceApply p.Position p.Rotation p.Scale v

/-!  The keyframe store (`Joint.py` lines 68-132, 267-282), list level.
A keyframe list is a Python `list[tuple[int, Pose]]`. -/

/-- Python `bisect.bisect_left(a, x)` under its documented contract for a
sorted list: the leftmost insertion point, i.e. the length of the leading
run of elements `< x`.  Every call site in `Joint.py` operates on the
frame-id list of a keyframe list, which the class invariant keeps sorted. -/
def bisect_left (x : ℤ) : List ℤ → ℕ
  | [] => 0
  | a :: l => if a < x then bisect_left x l + 1 else 0

/-- Python `bisect.insort(keyframes, (frame, pose))` as called on line 111:
insertion keeping the order of the frame ids.  At that call site no entry
with frame id `frame` exists, so the tuple comparison is decided by the
frame component alone. -/
def insortKF (frame : ℤ) (pose : Pose) : List (ℤ × Pose) → List (ℤ × Pose)
  | [] => [(frame, pose)]
  | k :: ks => if k.1 < frame then k :: insortKF frame pose ks else (frame, pose) :: k :: ks

/-- `Joint.getKeyframeRange(includeChildren=False)` restricted to the local
list (`Joint.py` lines 274-275): `(0, 0)` for an empty list, else the frame
ids of the first and last entries. -/
def localKeyframeRange (ks : List (ℤ × Pose)) : ℤ × ℤ :=
  match ks with
  | [] => (0, 0)
  | k :: ks' => (k.1, ((k :: ks').getLast (List.cons_ne_nil k ks')).1)

/-- The frame id a negative `frame` argument resolves to
(`Joint.py` lines 76 and 107):
`max(0, getKeyframeRange(includeChildren=False)[1] + 1 - frame)`. -/
def resolveNegFrame (ks : List (ℤ × Pose)) (frame : ℤ) : ℤ :=
  max 0 ((localKeyframeRange ks).2 + 1 - frame)

/-- The frame id actually looked up or inserted: negative arguments are
resolved by `resolveNegFrame`, non-negative ones pass through
(`Joint.py` lines 76 and 107, `if frame < 0: frame = ...`). -/
def resolveFrame (ks : List (ℤ × Pose)) (frame : ℤ) : ℤ :=
  if frame < 0 then resolveNegFrame ks frame else frame

/-- `Joint.getKeyframePose` (`Joint.py` lines 68-99) on the joint's keyframe
list.  `duplicate()` of the source is a deep copy and disappears in this
value-level model. -/
def getKeyframePose (ks : List (ℤ × Pose)) (frame : ℤ) : Pose :=
  if hks : ks = [] then Pose.default
  else
    let frame := resolveFrame ks frame
    let index := bisect_left frame (ks.map Prod.fst)
    if h : index < ks.length then
      if (ks.get ⟨index, h⟩).1 = frame then
        -- index matches a keyframe
        (ks.get ⟨index, h⟩).2
      else if index = 0 then
        -- index is smaller than first frame, take the key the source takes:
        -- `self.Keyframes[-1]`, the LAST one
        (ks.getLast hks).2
      else
        -- index is in between two keyframes, interpolate
        let before := ks.get ⟨index - 1, Nat.lt_of_le_of_lt (Nat.pred_le index) h⟩
        let after := ks.get ⟨index, h⟩
        let weight : ℚ := ((before.1 + frame : ℤ) : ℚ) / ((after.1 : ℤ) : ℚ)
        Pose.mk (Vec3.lerp before.2.Position after.2.Position weight)
                (Quat.lerp before.2.Rotation after.2.Rotation weight)
                (Vec3.lerp before.2.Scale after.2.Scale weight)
    else
      -- index is bigger than last frame, take last key
      (ks.getLast hks).2

/-- `Joint.insertKeyframePose` (`Joint.py` lines 101-115) on the joint's
keyframe list. -/
def insertKeyframePose (ks : List (ℤ × Pose)) (frame : ℤ) (pose : Pose) : List (ℤ × Pose) :=
  let frame := resolveFrame ks frame
  let index := bisect_left frame (ks.map Prod.fst)
  if h : index < ks.length then
    if (ks.get ⟨index, h⟩).1 ≠ frame then insortKF frame pose ks
    else ks.set index (frame, pose)
  else insortKF frame pose ks

/-- The local part of `Joint.removeKeyframe` (`Joint.py` lines 123-126):
remove the entry at the exact frame id if present, no negative-frame
resolution. -/
def removeKeyframeLocal (ks : List (ℤ × Pose)) (frame : ℤ) : List (ℤ × Pose) :=
  let index := bisect_left frame (ks.map Prod.fst)
  if h : index < ks.length then
    if (ks.get ⟨index, h⟩).1 = frame then ks.eraseIdx index else ks
  else ks

/-!  The joint hierarchy.  A `Joint` owns its current local properties
`Position`/`Rotation`/`Scale` (inherited from `Transform`), its `RestPose`,
its keyframe list and its children (`Joint.py` lines 6-66). -/

inductive Joint where
  | node (Position : Vec3) (Rotation : Quat) (Scale : Vec3)
         (RestPose : Pose) (Keyframes : List (ℤ × Pose))
         (Children : List Joint)

def Joint.Position : Joint → Vec3
  | .node P _ _ _ _ _ => P

def Joint.Rotation : Joint → Quat
  | .node _ R _ _ _ _ => R

def Joint.Scale : Joint → Vec3
  | .node _ _ S _ _ _ => S

def Joint.RestPose : Joint → Pose
  | .node _ _ _ rest _ _ => rest

def Joint.Keyframes : Joint → List (ℤ × Pose)
  | .node _ _ _ _ ks _ => ks

def Joint.Children : Joint → List Joint
  | .node _ _ _ _ _ cs => cs

/-- `Joint.getKeyframePose` at joint level (`Joint.py` lines 68-99). -/
def Joint.getKeyframePose (j : Joint) (frame : ℤ) : Pose :=
  Bvhio.getKeyframePose j.Keyframes frame

/-- `Joint.insertKeyframePose` at joint level (`Joint.py` lines 101-115);
the mutated `self` the source returns. -/
def Joint.insertKeyframePose (j : Joint) (frame : ℤ) (pose : Pose) : Joint :=
  match j with
  | .node P R S rest ks cs => .node P R S rest (Bvhio.insertKeyframePose ks frame pose) cs

mutual

/-- `Joint.removeKeyframe` (`Joint.py` lines 117-132): remove the exact
frame from the own list, then recurse over the children when `recursive`. -/
def Joint.removeKeyframe (frame : ℤ) (recursive : Bool) : Joint → Joint
  | .node P R S rest ks cs =>
    .node P R S rest (removeKeyframeLocal ks frame)
      (if recursive then Joint.removeKeyframeChildren frame cs else cs)

/-- The `for child in self.Children: child.removeKeyframe(frame, recursive=True)`
loop of `Joint.removeKeyframe`. -/
def Joint.removeKeyframeChildren (frame : ℤ) : List Joint → List Joint
  | [] => []
  | c :: cs => Joint.removeKeyframe frame true c :: Joint.removeKeyframeChildren frame cs

end

mutual

/-- `Joint.getKeyframeRange` (`Joint.py` lines 267-282): `(0, 0)` when the
own list is empty (children are not consulted in that case), else the own
`(first, last)` range, widened over the children when `includeChildren`. -/
def Joint.getKeyframeRange (includeChildren : Bool) : Joint → ℤ × ℤ
  | .node _ _ _ _ ks cs =>
    if ks = [] then (0, 0)
    else
      let r := localKeyframeRange ks
      if includeChildren then Joint.rangeOverChildren cs r else r

/-- The widening loop of `Joint.getKeyframeRange` (`Joint.py` lines 277-280):
fold `(min, max)` of each child's recursive range into the accumulator. -/
def Joint.rangeOverChildren : List Joint → ℤ × ℤ → ℤ × ℤ
  | [], r => r
  | c :: cs, r =>
    let childRange := Joint.getKeyframeRange true c
    Joint.rangeOverChildren cs (min r.1 childRange.1, max r.2 childRange.2)

end

/-!  Observables and predicates over the hierarchy, used to state claims. -/

mutual

/-- All frame ids stored anywhere in the subtree: the joint's own frame ids
followed by those of the descendants. -/
def Joint.subtreeFrames : Joint → List ℤ
  | .node _ _ _ _ ks cs => ks.map Prod.fst ++ Joint.subtreeFramesList cs

def Joint.subtreeFramesList : List Joint → List ℤ
  | [] => []
  | c :: cs => Joint.subtreeFrames c ++ Joint.subtreeFramesList cs

end

mutual

/-- Every keyframe list in the subtree holds only non-negative frame ids
(the documented convention, `Joint.py` line 36). -/
def Joint.subtreeFramesNonneg : Joint → Bool
  | .node _ _ _ _ ks cs =>
    ks.all (fun k => decide (0 ≤ k.1)) && Joint.subtreeFramesNonnegList cs

def Joint.subtreeFramesNonnegList : List Joint → Bool
  | [] => true
  | c :: cs => Joint.subtreeFramesNonneg c && Joint.subtreeFramesNonnegList cs

end

/-- The class invariant of a keyframe list (spec §3): frame ids strictly
ascending, hence without duplicates. -/
def SortedKF (ks : List (ℤ × Pose)) : Prop :=
  List.Pairwise (· < ·) (ks.map Prod.fst)

instance (ks : List (ℤ × Pose)) : Decidable (SortedKF ks) := by
  unfold SortedKF; infer_instance

mutual

/-- Every node of the subtree has a non-empty keyframe list satisfying the
sortedness invariant. -/
def Joint.subtreeSortedNE : Joint → Bool
  | .node _ _ _ _ ks cs =>
    !ks.isEmpty && decide (SortedKF ks) && Joint.subtreeSortedNEList cs

def Joint.subtreeSortedNEList : List Joint → Bool
  | [] => true
  | c :: cs => Joint.subtreeSortedNE c && Joint.subtreeSortedNEList cs

end

/-!  The rest-pose machinery (`Joint.py` lines 170-213 and 319-344),
restricted to the joint itself.  `applyRestposePosition` touches its
children through the external `Transform.applyPosition` and through
`loadRestPose`/`writeRestPose` calls that leave child keyframes alone;
for a joint without children — how every theorem below instantiates it —
those loops are vacuous, so the self-effect is the whole effect. -/

/-- Self part of `Joint.loadRestPose` (`Joint.py` lines 176-179): the
current properties are set from the rest pose. -/
def Joint.loadRestPoseSelf : Joint → Joint
  | .node _ _ _ rest ks cs => .node rest.Position rest.Rotation rest.Scale rest ks cs

/-- Self part of the external `Transform.applyPosition` (modelled from the
spec and the `applyRestposePosition` docstring, `Joint.py` lines 320, 334:
"Resets the position of the Restpose to (0,0,0) or adds the given
position"): the current position becomes the given one, `(0,0,0)` when
`none`.  The child-compensation part of `applyPosition` lives in the
external layer and is vacuous for a childless joint. -/
def Joint.applyPositionSelf (position : Option Vec3) : Joint → Joint
  | .node _ R S rest ks cs => .node (position.getD Vec3.zero) R S rest ks cs

/-- Self part of `Joint.writeRestPose` (`Joint.py` lines 188-206).  `keep`
is the Python `keep` list, `[]` standing for both `None` and the empty
list (`if keep:` rejects both).  When `keep` names channels, every stored
keyframe delta is rewritten exactly as lines 198-201 do; then the rest
pose takes the current properties (lines 204-206). -/
def Joint.writeRestPoseSelf (keep : List String) : Joint → Joint
  | .node P R S rest ks cs =>
    let ks' :=
      if keep = [] then ks
      else ks.map (fun fk =>
        let key := fk.2
        let key := if "position" ∈ keep then
            { key with Position :=
                spaceInvApply P R S (rest.spaceApply key.Position) } else key
        let key := if "rotation" ∈ keep then
            { key with Rotation := (rest.Rotation.mul R.inv).mul key.Rotation } else key
        let key := if "scale" ∈ keep then
            { key with Scale := (rest.Scale.hdiv S).hmul key.Scale } else key
        (fk.1, key))
    .node P R S (Pose.mk P R S) ks' cs

/-- Self-effect of `Joint.applyRestposePosition` (`Joint.py` lines 319-344)
for a childless joint: load the rest pose, apply the position, then
`writeRestPose(recursive=False, keep=None)` — line 336 passes `keep=None`. -/
def Joint.applyRestposePositionSelf (position : Option Vec3) (j : Joint) : Joint :=
  ((j.loadRestPoseSelf).applyPositionSelf position).writeRestPoseSelf []

/-- What claim C1 and the docstring of `applyRestposePosition` describe,
for comparison: the same flow but with `writeRestPose` keeping all of
`['position', 'rotation', 'scale']`, so the keyframes are rebased. -/
def Joint.applyRestposePositionKept (position : Option Vec3) (j : Joint) : Joint :=
  ((j.loadRestPoseSelf).applyPositionSelf position).writeRestPoseSelf
    ["position", "rotation", "scale"]

/-- The world position `loadPose` gives the joint at a frame
(`Joint.py` line 230): `RestPose.Space * key.Position` for the keyframe
delta at that frame. -/
def Joint.loadPosePosition (j : Joint) (frame : ℤ) : Vec3 :=
  j.RestPose.spaceApply (j.getKeyframePose frame).Position

/-!  Sequences of keyframe-store mutations, for the invariant claim. -/

/-- One call against the keyframe store: `insertKeyframePose(frame, pose)`
or `removeKeyframe(frame, recursive)`. -/
inductive KOp where
  | ins (frame : ℤ) (pose : Pose)
  | rem (frame : ℤ) (recursive : Bool)

/-- Run a sequence of keyframe-store calls against a joint, left to right. -/
def Joint.applyKOps : List KOp → Joint → Joint
  | [], j => j
  | KOp.ins f p :: ops, j => Joint.applyKOps ops (j.insertKeyframePose f p)
  | KOp.rem f r :: ops, j => Joint.applyKOps ops (j.removeKeyframe f r)

/-!  Reference-level model of `Pose` assignment, for the aliasing claim.
Python variables of type `Pose` are references to heap objects; a store
maps references (numbered cells) to `Pose` values and `duplicate()`
allocates a fresh cell.  Mutating a `Pose` writes through its reference. -/

/-- The `RestPose` setter (`Joint.py` lines 48-50):
`self._RestPose = value.duplicate()` copies the source's current value into
a fresh cell and stores that cell.  Returns the updated store and the cell
now held in `_RestPose`. -/
def restPoseSetterRef (σ : ℕ → Pose) (source fresh : ℕ) : (ℕ → Pose) × ℕ :=
  (Function.update σ fresh (σ source), fresh)

/-- `__init__` (`Joint.py` line 64):
`self._RestPose = Pose() if restPose is None else restPose`.  With an
argument, the argument's cell itself is stored — no `duplicate()`; with
`None`, a fresh default `Pose()` is allocated. -/
def initRestPoseRef (σ : ℕ → Pose) (restPose : Option ℕ) (fresh : ℕ) :
    (ℕ → Pose) × ℕ :=
  match restPose with
  | none => (Function.update σ fresh Pose.default, fresh)
  | some r => (σ, r)

/-!  Named concrete instances used by counterexamples and witnesses. -/

/-- A pose whose position differs from the default pose's. -/
def poseX : Pose := Pose.mk (Vec3.mk 1 0 0) Quat.one Vec3.one

/-- A childless joint in a translated rest pose with a single
identity-delta keyframe at frame 0 — the failing input of claim C1. -/
def jointC1 : Joint :=
  Joint.node Vec3.zero Quat.one Vec3.one
    (Pose.mk (Vec3.mk 1 0 0) Quat.one Vec3.one) [(0, Pose.default)] []

/-- A joint with keyframes at frames 3 and 7 and one keyframe-less child —
the failing input of claim C2's subtree part. -/
def jointC2 : Joint :=
  Joint.node Vec3.zero Quat.one Vec3.one Pose.default
    [(3, Pose.default), (7, poseX)]
    [Joint.node Vec3.zero Quat.one Vec3.one Pose.default [] []]

/-- A joint with a single keyframe at frame 0 — the failing input of
claim C3 (insert at frame 0 overwrites it, remove then deletes it). -/
def jointC3 : Joint :=
  Joint.node Vec3.zero Quat.one Vec3.one Pose.default [(0, Pose.default)] []

/-- A joint with keyframes at frames 0, 10 and 20, used to instantiate the
interpolation and clamping claims. -/
def jointW : Joint :=
  Joint.node Vec3.zero Quat.one Vec3.one Pose.default
    [(0, Pose.default), (10, poseX), (20, Pose.default)] []

/-- A two-level hierarchy with non-negative frame ids everywhere, used to
instantiate the recursive-removal claim. -/
def jointT : Joint :=
  Joint.node Vec3.zero Quat.one Vec3.one Pose.default [(3, Pose.default)]
    [Joint.node Vec3.zero Quat.one Vec3.one Pose.default [(5, poseX)] []]

/-!  Toolkit: properties of `bisect_left` on sorted frame-id lists. -/

theorem bisect_le_length (x : ℤ) (l : List ℤ) : bisect_left x l ≤ l.length := by
  induction l with
  | nil => simp [bisect_left]
  | cons a l ih =>
    simp only [bisect_left, List.length_cons]
    split <;> omega

theorem getElem_lt_of_lt_bisect (x : ℤ) (l : List ℤ) :
    ∀ j, j < bisect_left x l → (hl : j < l.length) → l[j] < x := by
  induction l with
  | nil => intro j hj hl; simp [bisect_left] at hj
  | cons a l ih =>
    intro j hj hl
    simp only [bisect_left] at hj
    by_cases ha : a < x
    · rw [if_pos ha] at hj
      cases j with
      | zero => simpa using ha
      | succ j =>
        rw [List.getElem_cons_succ]
        exact ih j (by omega) (by simpa using hl)
    · rw [if_neg ha] at hj; omega

theorem not_lt_getElem_bisect (x : ℤ) (l : List ℤ)
    (h : bisect_left x l < l.length) : ¬ l[bisect_left x l] < x := by
  induction l with
  | nil => simp at h
  | cons a l ih =>
    simp only [bisect_left] at h ⊢
    by_cases ha : a < x
    · simp only [if_pos ha] at h ⊢
      rw [List.getElem_cons_succ]
      exact ih (by simpa using h)
    · simp only [if_neg ha]
      simpa using ha

theorem bisect_eq_length_of_all_lt (x : ℤ) (l : List ℤ)
    (h : ∀ a ∈ l, a < x) : bisect_left x l = l.length := by
  induction l with
  | nil => rfl
  | cons a l ih =>
    simp only [bisect_left, List.length_cons]
    rw [if_pos (h a (List.mem_cons_self a l))]
    rw [ih (fun b hb => h b (List.mem_cons_of_mem a hb))]

theorem sorted_getElem_le {l : List ℤ} (hs : List.Pairwise (· < ·) l)
    {i j : ℕ} (hij : i ≤ j) (hj : j < l.length) :
    l.get ⟨i, Nat.lt_of_le_of_lt hij hj⟩ ≤ l[j] := by
  rcases Nat.lt_or_ge i j with h | h
  · exact le_of_lt ((List.pairwise_iff_getElem.mp hs) i j (Nat.lt_of_le_of_lt hij hj) hj h)
  · have : i = j := Nat.le_antisymm hij h
    subst this; exact le_refl _

/-- On a strictly sorted list, `bisect_left` of a stored value is exactly its
(unique) index. -/
theorem bisect_getElem_self {l : List ℤ} (hs : List.Pairwise (· < ·) l)
    {i : ℕ} (hi : i < l.length) : bisect_left (l[i]) l = i := by
  set x := l[i] with hx
  have hble : bisect_left x l ≤ i := by
    by_contra hgt
    exact absurd (getElem_lt_of_lt_bisect x l i (by omega) hi) (by simp [hx])
  have hblt : bisect_left x l < l.length := Nat.lt_of_le_of_lt hble hi
  rcases Nat.lt_or_ge (bisect_left x l) i with h | h
  · have := (List.pairwise_iff_getElem.mp hs) (bisect_left x l) i hblt hi h
    exact absurd this (not_lt_getElem_bisect x l hblt)
  · omega

theorem bisect_lt_length_of_mem {l : List ℤ} (hs : List.Pairwise (· < ·) l)
    {x : ℤ} (hx : x ∈ l) :
    ∃ h : bisect_left x l < l.length, l[bisect_left x l] = x := by
  obtain ⟨i, hi, hgi⟩ := List.mem_iff_getElem.mp hx
  subst hgi
  rw [bisect_getElem_self hs hi]
  exact ⟨hi, rfl⟩

theorem not_mem_of_bisect {l : List ℤ} {x : ℤ}
    (h : ∀ hlt : bisect_left x l < l.length, l[bisect_left x l] ≠ x)
    (hs : List.Pairwise (· < ·) l) : x ∉ l := by
  intro hx
  obtain ⟨hlt, heq⟩ := bisect_lt_length_of_mem hs hx
  exact h hlt heq

/-!  Toolkit: sorted keyframe lists. -/

theorem sortedKF_firsts {ks : List (ℤ × Pose)} (hs : SortedKF ks) :
    List.Pairwise (· < ·) (ks.map Prod.fst) := hs

theorem sorted_le_getLast {l : List ℤ} (hs : List.Pairwise (· < ·) l)
    {a : ℤ} (ha : a ∈ l) (hl : l ≠ []) : a ≤ l.getLast hl := by
  obtain ⟨i, hi, hgi⟩ := List.mem_iff_getElem.mp ha
  rw [List.getLast_eq_getElem]
  subst hgi
  exact sorted_getElem_le hs (by omega) (by omega)

theorem sorted_head_le {l : List ℤ} (hs : List.Pairwise (· < ·) l)
    {a : ℤ} (ha : a ∈ l) (hl : l ≠ []) : l.head hl ≤ a := by
  obtain ⟨i, hi, hgi⟩ := List.mem_iff_getElem.mp ha
  rw [List.head_eq_getElem]
  subst hgi
  exact sorted_getElem_le hs (by omega) hi

/-- The second component of the local range is the frame id of the last
keyframe. -/
theorem localKeyframeRange_snd {ks : List (ℤ × Pose)} (h : ks ≠ []) :
    (localKeyframeRange ks).2 = (ks.getLast h).1 := by
  match ks with
  | k :: ks' => rfl

/-- The first component of the local range is the frame id of the first
keyframe. -/
theorem localKeyframeRange_fst {ks : List (ℤ × Pose)} (h : ks ≠ []) :
    (localKeyframeRange ks).1 = (ks.head h).1 := by
  match ks with
  | k :: ks' => rfl

/-!  Toolkit: `insortKF`. -/

theorem mem_fst_insortKF {a f : ℤ} {p : Pose} {ks : List (ℤ × Pose)} :
    a ∈ (insortKF f p ks).map Prod.fst ↔ a = f ∨ a ∈ ks.map Prod.fst := by
  induction ks with
  | nil => simp [insortKF]
  | cons k ks ih =>
    by_cases hk : k.1 < f
    · simp only [insortKF, if_pos hk, List.map_cons, List.mem_cons, ih]
      tauto
    · simp only [insortKF, if_neg hk, List.map_cons, List.mem_cons]
      try tauto

theorem insortKF_sorted {f : ℤ} {p : Pose} {ks : List (ℤ × Pose)}
    (hs : SortedKF ks) (hf : f ∉ ks.map Prod.fst) : SortedKF (insortKF f p ks) := by
  induction ks with
  | nil => simp [SortedKF, insortKF]
  | cons k ks ih =>
    simp only [SortedKF, List.map_cons, List.pairwise_cons] at hs
    simp only [List.map_cons, List.mem_cons] at hf
    push_neg at hf
    by_cases hk : k.1 < f
    · simp only [SortedKF, insortKF, if_pos hk, List.map_cons, List.pairwise_cons]
      refine ⟨fun b hb => ?_, ih hs.2 hf.2⟩
      rcases mem_fst_insortKF.mp hb with rfl | hb
      · exact hk
      · exact hs.1 b hb
    · have hkf : f < k.1 := lt_of_le_of_ne (not_lt.mp hk) hf.1
      simp only [SortedKF, insortKF, if_neg hk, List.map_cons, List.pairwise_cons]
      exact ⟨fun b hb => by
        rcases List.mem_cons.mp hb with rfl | hb
        · exact hkf
        · exact lt_trans hkf (hs.1 b hb),
        hs.1, hs.2⟩

theorem insortKF_of_all_lt {f : ℤ} {p : Pose} {ks : List (ℤ × Pose)}
    (h : ∀ k ∈ ks, k.1 < f) : insortKF f p ks = ks ++ [(f, p)] := by
  induction ks with
  | nil => rfl
  | cons k ks ih =>
    simp only [insortKF, if_pos (h k (List.mem_cons_self k ks)), List.cons_append]
    rw [ih (fun b hb => h b (List.mem_cons_of_mem k hb))]

theorem self_mem_insortKF {f : ℤ} {p : Pose} {ks : List (ℤ × Pose)} :
    (f, p) ∈ insortKF f p ks := by
  induction ks with
  | nil => simp [insortKF]
  | cons k ks ih =>
    by_cases hk : k.1 < f
    · simp only [insortKF, if_pos hk, List.mem_cons]
      exact Or.inr ih
    · simp [insortKF, if_neg hk]

/-!  Toolkit: `insertKeyframePose` and `removeKeyframeLocal`. -/

theorem map_fst_set_same {ks : List (ℤ × Pose)} {i : ℕ} {f : ℤ} {p : Pose}
    (h : i < ks.length) (hf : (ks[i]).1 = f) :
    (ks.set i (f, p)).map Prod.fst = ks.map Prod.fst := by
  rw [List.map_set]
  refine List.ext_getElem (by simp) (fun n h₁ h₂ => ?_)
  rcases eq_or_ne i n with rfl | hne
  · rw [List.getElem_set_self, List.getElem_map, hf]
  · rw [List.getElem_set_ne hne]

/-- `insertKeyframePose` keeps the sortedness invariant: an exact frame-id
match is overwritten in place, anything else is insorted at a fresh id. -/
theorem insertKeyframePose_sorted {ks : List (ℤ × Pose)} {f : ℤ} {p : Pose}
    (hs : SortedKF ks) : SortedKF (insertKeyframePose ks f p) := by
  simp only [insertKeyframePose]
  split
  case isTrue h =>
    have hmaplen : bisect_left (resolveFrame ks f) (ks.map Prod.fst) <
        (ks.map Prod.fst).length := by simpa using h
    have hgm : (ks.map Prod.fst)[bisect_left (resolveFrame ks f) (ks.map Prod.fst)] =
        (ks[bisect_left (resolveFrame ks f) (ks.map Prod.fst)]).1 :=
      List.getElem_map Prod.fst
    split
    case isTrue hne =>
      simp only [List.get_eq_getElem] at hne
      refine insortKF_sorted hs (not_mem_of_bisect (fun hlt heq => ?_) hs)
      rw [hgm] at heq
      exact hne heq
    case isFalse hne =>
      rw [not_ne_iff, List.get_eq_getElem] at hne
      unfold SortedKF
      rw [map_fst_set_same h hne]
      exact hs
  case isFalse h =>
    refine insortKF_sorted hs (not_mem_of_bisect (fun hlt _ => ?_) hs)
    rw [List.length_map] at hlt
    exact absurd hlt h

theorem removeKeyframeLocal_sublist (ks : List (ℤ × Pose)) (f : ℤ) :
    (removeKeyframeLocal ks f).Sublist ks := by
  simp only [removeKeyframeLocal]
  split
  · split
    · exact List.eraseIdx_sublist ks _
    · exact List.Sublist.refl ks
  · exact List.Sublist.refl ks

theorem removeKeyframeLocal_sorted {ks : List (ℤ × Pose)} {f : ℤ}
    (hs : SortedKF ks) : SortedKF (removeKeyframeLocal ks f) :=
  List.Pairwise.sublist (List.Sublist.map Prod.fst (removeKeyframeLocal_sublist ks f)) hs

/-- Head characterization of `removeKeyframeLocal`, following the bisect
index through the cons. -/
theorem removeKeyframeLocal_cons (k : ℤ × Pose) (ks : List (ℤ × Pose)) (f : ℤ) :
    removeKeyframeLocal (k :: ks) f =
      if k.1 < f then k :: removeKeyframeLocal ks f
      else if k.1 = f then ks else k :: ks := by
  by_cases hk : k.1 < f
  · rw [if_pos hk]
    simp only [removeKeyframeLocal, List.map_cons, bisect_left, if_pos hk]
    by_cases hb : bisect_left f (ks.map Prod.fst) < ks.length
    · rw [dif_pos (by simpa using Nat.succ_lt_succ hb), dif_pos hb]
      simp only [List.get_eq_getElem, List.getElem_cons_succ]
      by_cases hq : (ks[bisect_left f (ks.map Prod.fst)]).1 = f
      · simp [hq, List.eraseIdx_cons_succ]
      · simp [hq]
    · rw [dif_neg (by simp only [List.length_cons]; omega), dif_neg hb]
  · rw [if_neg hk]
    simp only [removeKeyframeLocal, List.map_cons, bisect_left, if_neg hk]
    rw [dif_pos (by simp)]
    simp only [List.get_eq_getElem, List.getElem_cons_zero]
    split
    · rw [List.eraseIdx_cons_zero]
    · rfl

/-- Removing the frame id just insorted recovers the original list, provided
the id was not stored before. -/
theorem removeKeyframeLocal_insortKF {f : ℤ} {p : Pose} {ks : List (ℤ × Pose)}
    (hf : f ∉ ks.map Prod.fst) : removeKeyframeLocal (insortKF f p ks) f = ks := by
  induction ks with
  | nil =>
    simp [insortKF, removeKeyframeLocal_cons]
  | cons k ks ih =>
    simp only [List.map_cons, List.mem_cons] at hf
    push_neg at hf
    by_cases hk : k.1 < f
    · simp only [insortKF, if_pos hk]
      rw [removeKeyframeLocal_cons, if_pos hk, ih hf.2]
    · simp only [insortKF, if_neg hk]
      rw [removeKeyframeLocal_cons, if_neg (lt_irrefl f), if_pos rfl]

/-!  Toolkit: `getKeyframePose` branch characterizations. -/

theorem resolveFrame_nonneg_of (ks : List (ℤ × Pose)) {f : ℤ} (hf : 0 ≤ f) :
    resolveFrame ks f = f := by
  unfold resolveFrame
  exact if_neg (not_lt.mpr hf)

theorem resolveFrame_of_neg (ks : List (ℤ × Pose)) {f : ℤ} (hf : f < 0) :
    resolveFrame ks f = resolveNegFrame ks f := by
  unfold resolveFrame
  exact if_pos hf

theorem resolveNegFrame_nonneg (ks : List (ℤ × Pose)) (f : ℤ) :
    0 ≤ resolveNegFrame ks f := le_max_left 0 _

theorem resolveFrame_resolveFrame (ks : List (ℤ × Pose)) (f : ℤ) :
    resolveFrame ks (resolveFrame ks f) = resolveFrame ks f := by
  by_cases h : f < 0
  · rw [resolveFrame_of_neg ks h,
      resolveFrame_nonneg_of ks (resolveNegFrame_nonneg ks f)]
  · simp only [resolveFrame_nonneg_of ks (not_lt.mp h)]

/-- Exact-match branch: looking up a stored non-negative frame id gives that
keyframe's pose. -/
theorem getKeyframePose_getElem {ks : List (ℤ × Pose)} (hs : SortedKF ks)
    {i : ℕ} (hi : i < ks.length) (hf : 0 ≤ (ks[i]).1) :
    getKeyframePose ks (ks[i]).1 = (ks[i]).2 := by
  have hne : ks ≠ [] := List.ne_nil_of_length_pos (by omega)
  have hres : resolveFrame ks (ks[i]).1 = (ks[i]).1 := resolveFrame_nonneg_of ks hf
  have hi' : i < (ks.map Prod.fst).length := by simpa using hi
  have hmap : (ks.map Prod.fst)[i] = (ks[i]).1 := List.getElem_map Prod.fst
  have hb : bisect_left ((ks[i]).1) (ks.map Prod.fst) = i := by
    have h := bisect_getElem_self (l := ks.map Prod.fst) hs (i := i) (by simpa using hi)
    rwa [hmap] at h
  simp only [getKeyframePose, dif_neg hne, hres, hb]
  rw [dif_pos hi]
  simp

/-- Past-the-end branch: a (resolved) frame id above every stored one gives
the last keyframe's pose. -/
theorem getKeyframePose_all_lt {ks : List (ℤ × Pose)} (hne : ks ≠ []) {f : ℤ}
    (hbig : ∀ a ∈ ks.map Prod.fst, a < resolveFrame ks f) :
    getKeyframePose ks f = (ks.getLast hne).2 := by
  have hb := bisect_eq_length_of_all_lt (resolveFrame ks f) (ks.map Prod.fst) hbig
  simp only [getKeyframePose, dif_neg hne, hb]
  rw [dif_neg (by simp)]

/-- Before-the-first branch: a non-negative frame id below the first stored
one gives the LAST keyframe's pose (`Joint.py` line 89 takes
`self.Keyframes[-1]`). -/
theorem getKeyframePose_before_first {k : ℤ × Pose} {ks : List (ℤ × Pose)} {f : ℤ}
    (hf0 : 0 ≤ f) (hlt : f < k.1) :
    getKeyframePose (k :: ks) f = ((k :: ks).getLast (List.cons_ne_nil k ks)).2 := by
  have hne : (k :: ks) ≠ [] := List.cons_ne_nil k ks
  have hres : resolveFrame (k :: ks) f = f := resolveFrame_nonneg_of _ hf0
  have hb : bisect_left f ((k :: ks).map Prod.fst) = 0 := by
    simp [bisect_left, not_lt.mpr (le_of_lt hlt)]
  simp only [getKeyframePose, dif_neg hne, hres, hb]
  rw [dif_pos (by simp)]
  simp only [List.get_eq_getElem, List.getElem_cons_zero]
  rw [if_neg (by omega)]
  simp

/-- In-between branch: a (non-negative) frame id strictly between two
consecutive stored ids is linearly interpolated with the source's weight
`(before.frame + frame) / after.frame`. -/
theorem getKeyframePose_between {ks : List (ℤ × Pose)} (hs : SortedKF ks)
    {i : ℕ} (h1 : i + 1 < ks.length) {b a f : ℤ} {pb pa : Pose}
    (hgb : ks.get ⟨i, by omega⟩ = (b, pb)) (hga : ks.get ⟨i + 1, h1⟩ = (a, pa))
    (hbf : b < f) (hfa : f < a) (hf0 : 0 ≤ f) :
    getKeyframePose ks f = Pose.mk
      (Vec3.lerp pb.Position pa.Position (((b + f : ℤ) : ℚ) / ((a : ℚ))))
      (Quat.lerp pb.Rotation pa.Rotation (((b + f : ℤ) : ℚ) / ((a : ℚ))))
      (Vec3.lerp pb.Scale pa.Scale (((b + f : ℤ) : ℚ) / ((a : ℚ)))) := by
  have hi : i < ks.length := by omega
  have hne : ks ≠ [] := List.ne_nil_of_length_pos (by omega)
  have hres : resolveFrame ks f = f := resolveFrame_nonneg_of ks hf0
  simp only [List.get_eq_getElem] at hgb hga
  have hi' : i < (ks.map Prod.fst).length := by simpa using hi
  have h1' : i + 1 < (ks.map Prod.fst).length := by simpa using h1
  have hmb : (ks.map Prod.fst)[i] = b := by
    rw [List.getElem_map Prod.fst, hgb]
  have hma : (ks.map Prod.fst)[i + 1] = a := by
    rw [List.getElem_map Prod.fst, hga]
  -- the bisect index is exactly i + 1
  have hb : bisect_left f (ks.map Prod.fst) = i + 1 := by
    have hlen : (ks.map Prod.fst).length = ks.length := List.length_map ks Prod.fst
    have hble : ¬ bisect_left f (ks.map Prod.fst) ≤ i := by
      intro hle
      have hblt : bisect_left f (ks.map Prod.fst) < (ks.map Prod.fst).length := by omega
      have hle2 : (ks.map Prod.fst)[bisect_left f (ks.map Prod.fst)] ≤
          (ks.map Prod.fst)[i] :=
        sorted_getElem_le hs hle (by omega)
      rw [hmb] at hle2
      exact not_lt_getElem_bisect f (ks.map Prod.fst) hblt (by omega)
    have hnot : ¬ i + 2 ≤ bisect_left f (ks.map Prod.fst) := by
      intro hge
      have := getElem_lt_of_lt_bisect f (ks.map Prod.fst) (i + 1) (by omega) (by omega)
      rw [hma] at this
      omega
    omega
  simp only [getKeyframePose, dif_neg hne, hres, hb]
  rw [dif_pos (by omega)]
  simp only [List.get_eq_getElem]
  rw [if_neg (by rw [hga]; omega), if_neg (by omega)]
  simp only [Nat.add_sub_cancel, hga, hgb]

/-!  Toolkit: the resolved entry after an insertion. -/

theorem mem_insertKeyframePose {ks : List (ℤ × Pose)} {f : ℤ} {p : Pose} :
    (resolveFrame ks f, p) ∈ insertKeyframePose ks f p := by
  simp only [insertKeyframePose]
  split
  case isTrue h =>
    split
    case isTrue hne => exact self_mem_insortKF
    case isFalse hne =>
      have hlt : bisect_left (resolveFrame ks f) (ks.map Prod.fst) <
          (ks.set (bisect_left (resolveFrame ks f) (ks.map Prod.fst))
            (resolveFrame ks f, p)).length := by
        rw [List.length_set]; exact h
      have hset : (ks.set (bisect_left (resolveFrame ks f) (ks.map Prod.fst))
          (resolveFrame ks f, p))[bisect_left (resolveFrame ks f) (ks.map Prod.fst)]
          = (resolveFrame ks f, p) :=
        List.getElem_set_self _
      exact List.mem_iff_getElem.mpr ⟨_, by rw [List.length_set]; exact h, hset⟩
  case isFalse h => exact self_mem_insortKF

/-- Every stored frame id lies strictly below the resolution of a negative
frame argument (on a sorted list). -/
theorem frames_lt_resolveNeg {ks : List (ℤ × Pose)} (hs : SortedKF ks) {f : ℤ}
    (hf : f < 0) : ∀ a ∈ ks.map Prod.fst, a < resolveNegFrame ks f := by
  intro a ha
  have hne : ks ≠ [] := by rintro rfl; simp at ha
  have hmapne : ks.map Prod.fst ≠ [] := by simpa using hne
  have hlast : a ≤ (ks.map Prod.fst).getLast hmapne := sorted_le_getLast hs ha hmapne
  have hgl : (ks.map Prod.fst).getLast hmapne = (ks.getLast hne).1 :=
    List.getLast_map Prod.fst ks hmapne
  have hha : a ≤ (localKeyframeRange ks).2 := by
    rw [localKeyframeRange_snd hne, ← hgl]; exact hlast
  have h2 := le_max_right (0 : ℤ) ((localKeyframeRange ks).2 + 1 - f)
  unfold resolveNegFrame
  omega

/-- A negative frame argument makes `insertKeyframePose` append the resolved
entry at the end of a sorted list. -/
theorem insertKeyframePose_neg_eq {ks : List (ℤ × Pose)} {f : ℤ} {p : Pose}
    (hs : SortedKF ks) (hf : f < 0) :
    insertKeyframePose ks f p = ks ++ [(resolveNegFrame ks f, p)] := by
  have hall : ∀ a ∈ ks.map Prod.fst, a < resolveFrame ks f := by
    rw [resolveFrame_of_neg ks hf]; exact frames_lt_resolveNeg hs hf
  have hb : bisect_left (resolveFrame ks f) (ks.map Prod.fst) =
      (ks.map Prod.fst).length := bisect_eq_length_of_all_lt _ _ hall
  simp only [insertKeyframePose, hb]
  rw [dif_neg (by simp)]
  rw [insortKF_of_all_lt (fun k hk => hall k.1 (List.mem_map_of_mem Prod.fst hk)),
    resolveFrame_of_neg ks hf]

/-- Inserting at a non-negative, not-yet-stored frame id is a plain insort. -/
theorem insertKeyframePose_fresh_eq {ks : List (ℤ × Pose)} {f : ℤ} {p : Pose}
    (hf0 : 0 ≤ f) (hfresh : f ∉ ks.map Prod.fst) :
    insertKeyframePose ks f p = insortKF f p ks := by
  simp only [insertKeyframePose, resolveFrame_nonneg_of ks hf0]
  split
  case isTrue h =>
    split
    case isTrue => rfl
    case isFalse hne =>
      rw [not_ne_iff, List.get_eq_getElem] at hne
      exact absurd (hne ▸ List.mem_map_of_mem Prod.fst (List.getElem_mem h)) hfresh
  case isFalse h => rfl

/-!  Toolkit: projections of the joint-level wrappers. -/

theorem keyframes_insert_eq (j : Joint) (f : ℤ) (p : Pose) :
    (j.insertKeyframePose f p).Keyframes = insertKeyframePose j.Keyframes f p := by
  cases j; rfl

theorem keyframes_remove_eq (j : Joint) (f : ℤ) (r : Bool) :
    (Joint.removeKeyframe f r j).Keyframes = removeKeyframeLocal j.Keyframes f := by
  cases j; rfl

theorem getKeyframePose_joint_eq (j : Joint) (f : ℤ) :
    j.getKeyframePose f = getKeyframePose j.Keyframes f := rfl

/-!  Toolkit: recursive removal over a subtree with non-negative frame ids. -/

theorem removeLocal_neg_noop {ks : List (ℤ × Pose)} (hnn : ∀ k ∈ ks, 0 ≤ k.1)
    {f : ℤ} (hf : f < 0) : removeKeyframeLocal ks f = ks := by
  cases ks with
  | nil => rfl
  | cons k ks' =>
    rw [removeKeyframeLocal_cons]
    have h0 : 0 ≤ k.1 := hnn k (List.mem_cons_self k ks')
    rw [if_neg (by omega), if_neg (by omega)]

mutual

theorem removeKeyframe_neg_noop_aux (f : ℤ) (hf : f < 0) :
    ∀ j : Joint, Joint.subtreeFramesNonneg j = true → Joint.removeKeyframe f true j = j
  | Joint.node P R S rest ks cs, h => by
    simp only [Joint.subtreeFramesNonneg, Bool.and_eq_true, List.all_eq_true,
      decide_eq_true_eq] at h
    simp only [Joint.removeKeyframe, if_pos rfl]
    rw [removeLocal_neg_noop h.1 hf, removeKeyframeChildren_neg_noop_aux f hf cs h.2]
    simp

theorem removeKeyframeChildren_neg_noop_aux (f : ℤ) (hf : f < 0) :
    ∀ cs : List Joint, Joint.subtreeFramesNonnegList cs = true →
      Joint.removeKeyframeChildren f cs = cs
  | [], _ => rfl
  | c :: cs, h => by
    simp only [Joint.subtreeFramesNonnegList, Bool.and_eq_true] at h
    simp only [Joint.removeKeyframeChildren]
    rw [removeKeyframe_neg_noop_aux f hf c h.1,
      removeKeyframeChildren_neg_noop_aux f hf cs h.2]

end

/-!  Toolkit: characterization of the recursive keyframe range. -/

theorem rangeOverChildren_le (cs : List Joint) (r : ℤ × ℤ) :
    (Joint.rangeOverChildren cs r).1 ≤ r.1 ∧ r.2 ≤ (Joint.rangeOverChildren cs r).2 := by
  induction cs generalizing r with
  | nil => exact ⟨le_refl _, le_refl _⟩
  | cons c cs ih =>
    simp only [Joint.rangeOverChildren]
    exact ⟨le_trans (ih _).1 (min_le_left _ _), le_trans (le_max_left _ _) (ih _).2⟩

theorem localRange_bounds {ks : List (ℤ × Pose)} (hs : SortedKF ks) (hne : ks ≠ []) :
    (localKeyframeRange ks).1 ∈ ks.map Prod.fst ∧
    (localKeyframeRange ks).2 ∈ ks.map Prod.fst ∧
    ∀ g ∈ ks.map Prod.fst,
      (localKeyframeRange ks).1 ≤ g ∧ g ≤ (localKeyframeRange ks).2 := by
  have hmapne : ks.map Prod.fst ≠ [] := by simpa using hne
  have hfst : (localKeyframeRange ks).1 = (ks.map Prod.fst).head hmapne := by
    rw [localKeyframeRange_fst hne, List.head_eq_getElem, List.head_eq_getElem,
      List.getElem_map]
  have hsnd : (localKeyframeRange ks).2 = (ks.map Prod.fst).getLast hmapne := by
    rw [localKeyframeRange_snd hne, List.getLast_map]
  refine ⟨?_, ?_, ?_⟩
  · rw [hfst]; exact List.head_mem hmapne
  · rw [hsnd]; exact List.getLast_mem hmapne
  · intro g hg
    rw [hfst, hsnd]
    exact ⟨sorted_head_le hs hg hmapne, sorted_le_getLast hs hg hmapne⟩

mutual

theorem subtree_range_bounds :
    ∀ j : Joint, Joint.subtreeSortedNE j = true →
      ∀ g ∈ j.subtreeFrames,
        (j.getKeyframeRange true).1 ≤ g ∧ g ≤ (j.getKeyframeRange true).2
  | Joint.node P R S rest ks cs, h, g, hg => by
    have hne : ks ≠ [] := by
      intro hnil
      subst hnil
      simp [Joint.subtreeSortedNE] at h
    simp only [Joint.subtreeSortedNE, Bool.and_eq_true, decide_eq_true_eq] at h
    have hs : SortedKF ks := h.1.2
    simp only [Joint.subtreeFrames, List.mem_append] at hg
    simp only [Joint.getKeyframeRange, if_neg hne, if_pos rfl]
    rcases hg with hg | hg
    · have hlocal := (localRange_bounds hs hne).2.2 g hg
      have hmono := rangeOverChildren_le cs (localKeyframeRange ks)
      exact ⟨le_trans hmono.1 hlocal.1, le_trans hlocal.2 hmono.2⟩
    · exact subtree_range_bounds_list cs h.2 (localKeyframeRange ks) g hg

theorem subtree_range_bounds_list :
    ∀ cs : List Joint, Joint.subtreeSortedNEList cs = true →
      ∀ (r : ℤ × ℤ), ∀ g ∈ Joint.subtreeFramesList cs,
        (Joint.rangeOverChildren cs r).1 ≤ g ∧ g ≤ (Joint.rangeOverChildren cs r).2
  | [], _, r, g, hg => by simp [Joint.subtreeFramesList] at hg
  | c :: cs, h, r, g, hg => by
    simp only [Joint.subtreeSortedNEList, Bool.and_eq_true] at h
    simp only [Joint.subtreeFramesList, List.mem_append] at hg
    simp only [Joint.rangeOverChildren]
    rcases hg with hg | hg
    · have hc := subtree_range_bounds c h.1 g hg
      have hmono := rangeOverChildren_le cs
        (min r.1 (Joint.getKeyframeRange true c).1,
         max r.2 (Joint.getKeyframeRange true c).2)
      exact ⟨le_trans hmono.1 (le_trans (min_le_right _ _) hc.1),
        le_trans hc.2 (le_trans (le_max_right _ _) hmono.2)⟩
    · exact subtree_range_bounds_list cs h.2 _ g hg

end

mutual

theorem subtree_range_mem :
    ∀ j : Joint, Joint.subtreeSortedNE j = true →
      (j.getKeyframeRange true).1 ∈ j.subtreeFrames ∧
      (j.getKeyframeRange true).2 ∈ j.subtreeFrames
  | Joint.node P R S rest ks cs, h => by
    have hne : ks ≠ [] := by
      intro hnil
      subst hnil
      simp [Joint.subtreeSortedNE] at h
    simp only [Joint.subtreeSortedNE, Bool.and_eq_true, decide_eq_true_eq] at h
    have hs : SortedKF ks := h.1.2
    have hlocal := localRange_bounds hs hne
    simp only [Joint.getKeyframeRange, if_neg hne, if_pos rfl]
    simp only [Joint.subtreeFrames, List.mem_append]
    have hlist := subtree_range_mem_list cs h.2 (localKeyframeRange ks)
    constructor
    · rcases hlist.1 with heq | hmem
      · exact Or.inl (heq ▸ hlocal.1)
      · exact Or.inr hmem
    · rcases hlist.2 with heq | hmem
      · exact Or.inl (heq ▸ hlocal.2.1)
      · exact Or.inr hmem

theorem subtree_range_mem_list :
    ∀ cs : List Joint, Joint.subtreeSortedNEList cs = true →
      ∀ r : ℤ × ℤ,
        ((Joint.rangeOverChildren cs r).1 = r.1 ∨
          (Joint.rangeOverChildren cs r).1 ∈ Joint.subtreeFramesList cs) ∧
        ((Joint.rangeOverChildren cs r).2 = r.2 ∨
          (Joint.rangeOverChildren cs r).2 ∈ Joint.subtreeFramesList cs)
  | [], _, r => by simp [Joint.rangeOverChildren]
  | c :: cs, h, r => by
    simp only [Joint.subtreeSortedNEList, Bool.and_eq_true] at h
    simp only [Joint.rangeOverChildren, Joint.subtreeFramesList, List.mem_append]
    have hc := subtree_range_mem c h.1
    have ih := subtree_range_mem_list cs h.2
      (min r.1 (Joint.getKeyframeRange true c).1,
       max r.2 (Joint.getKeyframeRange true c).2)
    constructor
    · rcases (ih).1 with heq | hmem
      · rw [heq]
        rcases min_choice r.1 (Joint.getKeyframeRange true c).1 with hm | hm
        · exact Or.inl hm
        · refine Or.inr (Or.inl ?_)
          show min r.1 (Joint.getKeyframeRange true c).1 ∈ c.subtreeFrames
          rw [hm]
          exact hc.1
      · exact Or.inr (Or.inr hmem)
    · rcases (ih).2 with heq | hmem
      · rw [heq]
        rcases max_choice r.2 (Joint.getKeyframeRange true c).2 with hm | hm
        · exact Or.inl hm
        · refine Or.inr (Or.inl ?_)
          show max r.2 (Joint.getKeyframeRange true c).2 ∈ c.subtreeFrames
          rw [hm]
          exact hc.2
      · exact Or.inr (Or.inr hmem)

end

/-!  Claim theorems. -/

/-- C4: for every joint satisfying the keyframe sortedness invariant, every
frame id `f` (negative ids resolved as the source resolves them) and every
pose `p`, `insertKeyframePose(f, p)` followed by `getKeyframePose(f)`
returns a pose component-wise equal to `p`. -/
theorem c4_insert_then_get (j : Joint) (f : ℤ) (p : Pose)
    (hs : SortedKF j.Keyframes) :
    (j.insertKeyframePose f p).getKeyframePose f = p := by
  rw [getKeyframePose_joint_eq, keyframes_insert_eq]
  by_cases hf : 0 ≤ f
  · have hs' : SortedKF (insertKeyframePose j.Keyframes f p) :=
      insertKeyframePose_sorted hs
    have hmem : (f, p) ∈ insertKeyframePose j.Keyframes f p := by
      have h := @mem_insertKeyframePose j.Keyframes f p
      rwa [resolveFrame_nonneg_of _ hf] at h
    obtain ⟨i, hi, hgi⟩ := List.mem_iff_getElem.mp hmem
    have h := getKeyframePose_getElem hs' hi (by rw [hgi]; exact hf)
    rw [hgi] at h
    simpa using h
  · push_neg at hf
    rw [insertKeyframePose_neg_eq hs hf]
    set r := resolveNegFrame j.Keyframes f with hrdef
    have hne : j.Keyframes ++ [(r, p)] ≠ [] := by simp
    have hlast : (j.Keyframes ++ [(r, p)]).getLast hne = (r, p) :=
      List.getLast_concat _
    have hr2 : (localKeyframeRange (j.Keyframes ++ [(r, p)])).2 = r := by
      rw [localKeyframeRange_snd hne, hlast]
    have hallbig : ∀ a ∈ (j.Keyframes ++ [(r, p)]).map Prod.fst,
        a < resolveFrame (j.Keyframes ++ [(r, p)]) f := by
      intro a ha
      rw [resolveFrame_of_neg _ hf]
      unfold resolveNegFrame
      rw [hr2]
      have h2 := le_max_right (0 : ℤ) (r + 1 - f)
      simp only [List.map_append, List.map_cons, List.map_nil, List.mem_append,
        List.mem_singleton] at ha
      rcases ha with ha | rfl
      · have h3 := frames_lt_resolveNeg hs hf a ha
        omega
      · omega
    rw [getKeyframePose_all_lt hne hallbig, hlast]

/-- C4 witness: concrete instantiation at the joint with keyframes at
0, 10, 20, inserting at frame 5. -/
theorem c4_witness : SortedKF jointW.Keyframes ∧
    (jointW.insertKeyframePose 5 poseX).getKeyframePose 5 = poseX :=
  ⟨by decide, c4_insert_then_get jointW 5 poseX (by decide)⟩

/-- C3 counterexample: with a keyframe already stored at frame 0, inserting
at frame 0 overwrites it and removing frame 0 then deletes the entry
entirely, so the pre-insert list (one entry) is NOT restored. -/
theorem c3_counterexample :
    ((jointC3.insertKeyframePose 0 poseX).removeKeyframe 0 false).Keyframes = [] ∧
    jointC3.Keyframes = [(0, Pose.default)] ∧
    ([] : List (ℤ × Pose)) ≠ [(0, Pose.default)] :=
  ⟨by decide, rfl, by decide⟩

/-- C3 (amended): for a joint satisfying the sortedness invariant, a
non-negative frame id with no stored keyframe at it, `insertKeyframePose`
followed by `removeKeyframe` at that frame restores the joint exactly
(same entries, same order). -/
theorem c3_insert_remove (j : Joint) (f : ℤ) (p : Pose) (hs : SortedKF j.Keyframes)
    (hf0 : 0 ≤ f) (hfresh : f ∉ j.Keyframes.map Prod.fst) :
    (j.insertKeyframePose f p).removeKeyframe f false = j := by
  cases j with
  | node P R S rest ks cs =>
    have hfresh' : f ∉ ks.map Prod.fst := hfresh
    have hkey : removeKeyframeLocal (insertKeyframePose ks f p) f = ks := by
      rw [insertKeyframePose_fresh_eq hf0 hfresh', removeKeyframeLocal_insortKF hfresh']
    simp only [Joint.insertKeyframePose, Joint.removeKeyframe, hkey]
    simp

/-- C3 witness: inserting at the fresh frame 5 of the 0/10/20 joint and
removing it again restores the joint. -/
theorem c3_witness : (SortedKF jointW.Keyframes ∧ (0 : ℤ) ≤ 5 ∧
      (5 : ℤ) ∉ jointW.Keyframes.map Prod.fst) ∧
    (jointW.insertKeyframePose 5 poseX).removeKeyframe 5 false = jointW :=
  ⟨⟨by decide, by decide, by decide⟩,
    c3_insert_remove jointW 5 poseX (by decide) (by decide) (by decide)⟩

/-- C5: on a joint with a non-empty sorted keyframe list, a non-negative
frame id strictly below the first stored frame id makes `getKeyframePose`
return the LAST keyframe's pose — the clamp-to-last branch, not the first
keyframe. -/
theorem c5_before_first_returns_last (j : Joint) (f : ℤ) (hs : SortedKF j.Keyframes)
    (hne : j.Keyframes ≠ []) (hf0 : 0 ≤ f)
    (hlt : f < (j.Keyframes.head hne).1) :
    j.getKeyframePose f = (j.Keyframes.getLast hne).2 := by
  rw [getKeyframePose_joint_eq]
  obtain ⟨k, ks', hks⟩ := List.exists_cons_of_ne_nil hne
  revert hlt
  revert hne
  rw [hks]
  intro hne hlt
  rw [List.head_cons] at hlt
  exact getKeyframePose_before_first hf0 hlt

/-- C5 witness: on the joint with keyframes at 3 and 7, frame 1 returns the
pose stored at frame 7 (the last), not the one at frame 3. -/
theorem c5_witness : (SortedKF jointC2.Keyframes ∧ jointC2.Keyframes ≠ [] ∧
      (0 : ℤ) ≤ 1 ∧ (1 : ℤ) < 3) ∧
    jointC2.getKeyframePose 1 = (jointC2.Keyframes.getLast (by decide)).2 :=
  ⟨⟨by decide, by decide, by decide, by decide⟩,
    c5_before_first_returns_last jointC2 1 (by decide) (by decide) (by decide)
      (by decide)⟩

/-- C6: a frame strictly between two consecutive stored keyframes is
linearly interpolated on all three channels with the source's weight
`(before.frame + frame) / after.frame`; concretely, with keyframes at
0, 10, 20, frame 5 is interpolated between frames 0 and 10 with weight
`(0 + 5) / 10 = 1/2`, and frame 25 clamps to the pose at frame 20. -/
theorem c6_interpolation_weight :
    (∀ (j : Joint) (i : ℕ) (b a f : ℤ) (pb pa : Pose),
        SortedKF j.Keyframes →
        ∀ h1 : i + 1 < j.Keyframes.length,
        j.Keyframes.get ⟨i, by omega⟩ = (b, pb) →
        j.Keyframes.get ⟨i + 1, h1⟩ = (a, pa) →
        b < f → f < a → 0 ≤ f →
        j.getKeyframePose f = Pose.mk
          (Vec3.lerp pb.Position pa.Position (((b + f : ℤ) : ℚ) / ((a : ℤ) : ℚ)))
          (Quat.lerp pb.Rotation pa.Rotation (((b + f : ℤ) : ℚ) / ((a : ℤ) : ℚ)))
          (Vec3.lerp pb.Scale pa.Scale (((b + f : ℤ) : ℚ) / ((a : ℤ) : ℚ)))) ∧
    (∀ q0 q1 q2 : Pose,
        getKeyframePose [(0, q0), (10, q1), (20, q2)] 5 = Pose.mk
          (Vec3.lerp q0.Position q1.Position (1 / 2))
          (Quat.lerp q0.Rotation q1.Rotation (1 / 2))
          (Vec3.lerp q0.Scale q1.Scale (1 / 2)) ∧
        getKeyframePose [(0, q0), (10, q1), (20, q2)] 25 = q2) := by
  constructor
  · intro j i b a f pb pa hs h1 hgb hga hbf hfa hf0
    rw [getKeyframePose_joint_eq]
    exact getKeyframePose_between hs h1 hgb hga hbf hfa hf0
  · intro q0 q1 q2
    constructor
    · have hs0 : SortedKF [(0, q0), (10, q1), (20, q2)] := by
        simp [SortedKF]
      have h := @getKeyframePose_between [(0, q0), (10, q1), (20, q2)] hs0 0
        (by norm_num) 0 10 5 q0 q1 rfl rfl (by norm_num) (by norm_num) (by norm_num)
      have hw : (((0 : ℤ) + 5 : ℤ) : ℚ) / (((10 : ℤ)) : ℚ) = 1 / 2 := by norm_num
      rw [hw] at h
      exact h
    · have hne : ([(0, q0), (10, q1), (20, q2)] : List (ℤ × Pose)) ≠ [] := by simp
      have hbig : ∀ x ∈ ([(0, q0), (10, q1), (20, q2)] :
          List (ℤ × Pose)).map Prod.fst,
          x < resolveFrame [(0, q0), (10, q1), (20, q2)] 25 := by
        rw [resolveFrame_nonneg_of _ (by norm_num)]
        intro x hx
        simp only [List.map_cons, List.map_nil, List.mem_cons,
          List.not_mem_nil, or_false] at hx
        rcases hx with rfl | rfl | rfl <;> norm_num
      rw [getKeyframePose_all_lt hne hbig]
      rfl

/-- C6 witness: instantiation of both parts at the 0/10/20 joint with
distinct poses. -/
theorem c6_witness :
    (SortedKF jointW.Keyframes ∧ jointW.Keyframes.get ⟨0, by decide⟩
        = (0, Pose.default) ∧ jointW.Keyframes.get ⟨1, by decide⟩ = (10, poseX)) ∧
    jointW.getKeyframePose 5 = Pose.mk
      (Vec3.lerp Pose.default.Position poseX.Position ((((0 : ℤ) + 5 : ℤ) : ℚ) / (((10 : ℤ)) : ℚ)))
      (Quat.lerp Pose.default.Rotation poseX.Rotation ((((0 : ℤ) + 5 : ℤ) : ℚ) / (((10 : ℤ)) : ℚ)))
      (Vec3.lerp Pose.default.Scale poseX.Scale ((((0 : ℤ) + 5 : ℤ) : ℚ) / (((10 : ℤ)) : ℚ))) ∧
    getKeyframePose [(0, Pose.default), (10, poseX), (20, Pose.default)] 25
      = Pose.default :=
  ⟨⟨by decide, rfl, rfl⟩,
    c6_interpolation_weight.1 jointW 0 0 10 5 Pose.default poseX (by decide)
      (by decide) rfl rfl (by decide) (by decide) (by decide),
    (c6_interpolation_weight.2 Pose.default poseX Pose.default).2⟩

/-- C7: on a joint with a non-empty keyframe list, a negative frame
argument is resolved to `max(0, lastFrame + 1 - frame)` — `lastFrame` the
joint's own last stored frame id — before any lookup or insertion: both
`getKeyframePose` and `insertKeyframePose` behave exactly as if called with
the resolved frame id. -/
theorem c7_negative_frame_resolution (j : Joint) (f : ℤ) (p : Pose)
    (hne : j.Keyframes ≠ []) (hf : f < 0) :
    resolveFrame j.Keyframes f = max 0 ((j.Keyframes.getLast hne).1 + 1 - f) ∧
    j.getKeyframePose f = j.getKeyframePose (resolveFrame j.Keyframes f) ∧
    j.insertKeyframePose f p = j.insertKeyframePose (resolveFrame j.Keyframes f) p := by
  refine ⟨?_, ?_, ?_⟩
  · rw [resolveFrame_of_neg _ hf]
    unfold resolveNegFrame
    rw [localKeyframeRange_snd hne]
  · rw [getKeyframePose_joint_eq, getKeyframePose_joint_eq]
    simp only [getKeyframePose, dif_neg hne, resolveFrame_resolveFrame]
  · cases j with
    | node P R S rest ks cs =>
      have hlist : Bvhio.insertKeyframePose ks f p
          = Bvhio.insertKeyframePose ks (resolveFrame ks f) p := by
        simp only [Bvhio.insertKeyframePose, resolveFrame_resolveFrame]
      simp only [Joint.insertKeyframePose, Joint.Keyframes, hlist]

/-- C7 witness: instantiation at the 0/10/20 joint with frame -2, which
resolves to `max(0, 20 + 1 + 2) = 23`. -/
theorem c7_witness : (jointW.Keyframes ≠ [] ∧ (-2 : ℤ) < 0) ∧
    resolveFrame jointW.Keyframes (-2)
      = max 0 ((jointW.Keyframes.getLast (by decide)).1 + 1 - (-2)) ∧
    jointW.getKeyframePose (-2)
      = jointW.getKeyframePose (resolveFrame jointW.Keyframes (-2)) ∧
    jointW.insertKeyframePose (-2) poseX
      = jointW.insertKeyframePose (resolveFrame jointW.Keyframes (-2)) poseX :=
  ⟨⟨by decide, by decide⟩,
    c7_negative_frame_resolution jointW (-2) poseX (by decide) (by decide)⟩

/-- C8: starting from a joint whose keyframe list satisfies the strictly
ascending invariant, any sequence of `insertKeyframePose` and
`removeKeyframe` calls leaves the list strictly ascending by frame id with
no duplicate ids. -/
theorem c8_sorted_invariant (ops : List KOp) (j : Joint) (hs : SortedKF j.Keyframes) :
    SortedKF (Joint.applyKOps ops j).Keyframes ∧
    ((Joint.applyKOps ops j).Keyframes.map Prod.fst).Nodup := by
  have main : ∀ (ops : List KOp) (j : Joint), SortedKF j.Keyframes →
      SortedKF (Joint.applyKOps ops j).Keyframes := by
    intro ops
    induction ops with
    | nil => intro j hj; exact hj
    | cons op ops ih =>
      intro j hj
      cases op with
      | ins f p =>
        simp only [Joint.applyKOps]
        exact ih _ (by rw [keyframes_insert_eq]; exact insertKeyframePose_sorted hj)
      | rem f r =>
        simp only [Joint.applyKOps]
        exact ih _ (by rw [keyframes_remove_eq]; exact removeKeyframeLocal_sorted hj)
  exact ⟨main ops j hs, List.Pairwise.nodup (main ops j hs)⟩

/-- C8 witness: a concrete insert/overwrite/remove sequence on the 0/10/20
joint. -/
theorem c8_witness : SortedKF jointW.Keyframes ∧
    (SortedKF (Joint.applyKOps
        [KOp.ins 5 poseX, KOp.ins 10 poseX, KOp.rem 0 true, KOp.ins (-1) poseX]
        jointW).Keyframes ∧
      ((Joint.applyKOps
        [KOp.ins 5 poseX, KOp.ins 10 poseX, KOp.rem 0 true, KOp.ins (-1) poseX]
        jointW).Keyframes.map Prod.fst).Nodup) :=
  ⟨by decide, c8_sorted_invariant
    [KOp.ins 5 poseX, KOp.ins 10 poseX, KOp.rem 0 true, KOp.ins (-1) poseX]
    jointW (by decide)⟩

/-- C1: evaluation of `applyRestposePosition` at the failing input.  The
code passes `keep=None` to `writeRestPose` (line 336), so the keyframe
deltas of the joint are NOT rebased: on a leaf joint with rest position
`(1,0,0)` and one identity-delta keyframe at frame 0, the rest position is
reset to zero, the keyframe list is unchanged, and the animated world
position at frame 0 moves from `(1,0,0)` to `(0,0,0)` — the animated
appearance is not preserved.  With `keep=['position','rotation','scale']`,
as the claim and the method's own docstring describe, the delta would be
rebased to `(1,0,0)` and the appearance preserved. -/
theorem c1_applyRestposePosition_eval :
    (Joint.applyRestposePositionSelf none jointC1).Keyframes = jointC1.Keyframes ∧
    (Joint.applyRestposePositionSelf none jointC1).RestPose = Pose.default ∧
    jointC1.loadPosePosition 0 = Vec3.mk 1 0 0 ∧
    (Joint.applyRestposePositionSelf none jointC1).loadPosePosition 0 = Vec3.zero ∧
    (Joint.applyRestposePositionKept none jointC1).Keyframes
      = [(0, Pose.mk (Vec3.mk 1 0 0) Quat.one Vec3.one)] ∧
    (Joint.applyRestposePositionKept none jointC1).loadPosePosition 0
      = Vec3.mk 1 0 0 ∧
    Vec3.mk 1 0 0 ≠ Vec3.zero := by
  refine ⟨by decide, by decide, ?_, ?_, ?_, ?_, by decide⟩
  · norm_num +decide [Joint.loadPosePosition, Joint.getKeyframePose, Joint.RestPose,
      Joint.Keyframes, jointC1, getKeyframePose, resolveFrame, resolveNegFrame,
      localKeyframeRange, bisect_left, Pose.default, Pose.spaceApply, spaceApply,
      Vec3.add, Vec3.hmul, Quat.rotate, Quat.mul, Quat.inv, Quat.norm2, Quat.one,
      Vec3.zero, Vec3.one, List.get]
  · norm_num +decide [Joint.loadPosePosition, Joint.getKeyframePose, Joint.RestPose,
      Joint.Keyframes, jointC1, Joint.applyRestposePositionSelf,
      Joint.loadRestPoseSelf, Joint.applyPositionSelf, Joint.writeRestPoseSelf,
      getKeyframePose, resolveFrame, resolveNegFrame, localKeyframeRange,
      bisect_left, Pose.default, Pose.spaceApply, spaceApply, Vec3.add, Vec3.hmul,
      Quat.rotate, Quat.mul, Quat.inv, Quat.norm2, Quat.one, Vec3.zero, Vec3.one,
      List.get]
  · norm_num +decide [Joint.applyRestposePositionKept, Joint.loadRestPoseSelf,
      Joint.applyPositionSelf, Joint.writeRestPoseSelf, Joint.Keyframes, jointC1,
      Pose.default, Pose.spaceApply, spaceApply, spaceInvApply, Vec3.add, Vec3.sub,
      Vec3.hmul, Vec3.hdiv, Quat.rotate, Quat.mul, Quat.inv, Quat.norm2, Quat.one,
      Vec3.zero, Vec3.one]
  · norm_num +decide [Joint.loadPosePosition, Joint.getKeyframePose, Joint.RestPose,
      Joint.Keyframes, jointC1, Joint.applyRestposePositionKept,
      Joint.loadRestPoseSelf, Joint.applyPositionSelf, Joint.writeRestPoseSelf,
      getKeyframePose, resolveFrame, resolveNegFrame, localKeyframeRange,
      bisect_left, Pose.default, Pose.spaceApply, spaceApply, spaceInvApply,
      Vec3.add, Vec3.sub, Vec3.hmul, Vec3.hdiv, Quat.rotate, Quat.mul, Quat.inv,
      Quat.norm2, Quat.one, Vec3.zero, Vec3.one, List.get]

/-- C2 counterexample: on a joint with keyframes at frames 3 and 7 and one
keyframe-less child, the subtree frame ids are exactly {3, 7}, yet
`getKeyframeRange(includeChildren=True)` returns `(0, 7)` — the empty
child's `(0, 0)` range drags the minimum to 0, so the result is not the
min/max over the subtree's stored frames. -/
theorem c2_counterexample :
    jointC2.getKeyframeRange true = (0, 7) ∧
    jointC2.subtreeFrames = [3, 7] ∧
    ((0 : ℤ), (7 : ℤ)) ≠ ((3 : ℤ), (7 : ℤ)) :=
  ⟨by decide, by decide, by decide⟩

/-- C2 (amended): `getKeyframeRange` returns `(0, 0)` whenever the joint's
OWN keyframe list is empty (children are then ignored, even with
`includeChildren=True`); on a sorted non-empty own list,
`getKeyframeRange(False)` is exactly the min/max of the stored frame ids;
and when every node of the subtree has a sorted, non-empty keyframe list,
`getKeyframeRange(True)` is exactly the min/max over all frame ids stored
in the subtree. -/
theorem c2_keyframe_range :
    (∀ j : Joint, j.Keyframes = [] →
        j.getKeyframeRange false = (0, 0) ∧ j.getKeyframeRange true = (0, 0)) ∧
    (∀ j : Joint, SortedKF j.Keyframes → j.Keyframes ≠ [] →
        (j.getKeyframeRange false).1 ∈ j.Keyframes.map Prod.fst ∧
        (j.getKeyframeRange false).2 ∈ j.Keyframes.map Prod.fst ∧
        ∀ g ∈ j.Keyframes.map Prod.fst,
          (j.getKeyframeRange false).1 ≤ g ∧ g ≤ (j.getKeyframeRange false).2) ∧
    (∀ j : Joint, Joint.subtreeSortedNE j = true →
        (j.getKeyframeRange true).1 ∈ j.subtreeFrames ∧
        (j.getKeyframeRange true).2 ∈ j.subtreeFrames ∧
        ∀ g ∈ j.subtreeFrames,
          (j.getKeyframeRange true).1 ≤ g ∧ g ≤ (j.getKeyframeRange true).2) := by
  refine ⟨?_, ?_, ?_⟩
  · intro j hj
    cases j with
    | node P R S rest ks cs =>
      have hks : ks = [] := hj
      subst hks
      constructor <;> rfl
  · intro j hs hne
    cases j with
    | node P R S rest ks cs =>
      have hne' : ks ≠ [] := hne
      have hs' : SortedKF ks := hs
      have hr : Joint.getKeyframeRange false (Joint.node P R S rest ks cs)
          = localKeyframeRange ks := by
        simp only [Joint.getKeyframeRange, if_neg hne']
        rfl
      have hb := localRange_bounds hs' hne'
      exact ⟨by rw [hr]; exact hb.1, by rw [hr]; exact hb.2.1,
        fun g hg => by rw [hr]; exact hb.2.2 g hg⟩
  · intro j hsub
    have hmem := subtree_range_mem j hsub
    exact ⟨hmem.1, hmem.2, subtree_range_bounds j hsub⟩

/-- C2 witness: instantiation of all three parts — a keyframe-less joint,
the flat 0/10/20 joint, and the two-level tree with frames 3 and 5. -/
theorem c2_witness :
    ((Joint.node Vec3.zero Quat.one Vec3.one Pose.default [] []).getKeyframeRange
        false = (0, 0) ∧
      (Joint.node Vec3.zero Quat.one Vec3.one Pose.default [] []).getKeyframeRange
        true = (0, 0)) ∧
    ((jointW.getKeyframeRange false).1 ∈ jointW.Keyframes.map Prod.fst ∧
      (jointW.getKeyframeRange false).2 ∈ jointW.Keyframes.map Prod.fst ∧
      ∀ g ∈ jointW.Keyframes.map Prod.fst,
        (jointW.getKeyframeRange false).1 ≤ g ∧
          g ≤ (jointW.getKeyframeRange false).2) ∧
    ((jointT.getKeyframeRange true).1 ∈ jointT.subtreeFrames ∧
      (jointT.getKeyframeRange true).2 ∈ jointT.subtreeFrames ∧
      ∀ g ∈ jointT.subtreeFrames,
        (jointT.getKeyframeRange true).1 ≤ g ∧ g ≤ (jointT.getKeyframeRange true).2) :=
  ⟨c2_keyframe_range.1 (Joint.node Vec3.zero Quat.one Vec3.one Pose.default [] []) rfl,
    c2_keyframe_range.2.1 jointW (by decide) (by decide),
    c2_keyframe_range.2.2 jointT (by decide)⟩

/-- C9 counterexample: the constructor stores its `restPose` argument
without `duplicate()` (line 64), so the stored rest pose aliases the
caller's Pose: mutating the source afterwards changes the joint's stored
rest pose from the default to the mutated value. -/
theorem c9_counterexample :
    (initRestPoseRef (fun _ => Pose.default) (some 0) 1).2 = 0 ∧
    (initRestPoseRef (fun _ => Pose.default) (some 0) 1).1
      ((initRestPoseRef (fun _ => Pose.default) (some 0) 1).2) = Pose.default ∧
    Function.update (initRestPoseRef (fun _ => Pose.default) (some 0) 1).1 0 poseX
      ((initRestPoseRef (fun _ => Pose.default) (some 0) 1).2) = poseX ∧
    poseX ≠ Pose.default := by
  refine ⟨rfl, rfl, ?_, by decide⟩
  simp [initRestPoseRef, Function.update_same]

/-- C9 (amended): the `RestPose` setter stores an independent copy — after
the assignment, mutating the source Pose does not change the joint's
stored rest pose — but the constructor's `restPose` argument is stored
without copying, so mutating that source does change the stored rest
pose. -/
theorem c9_setter_copies_init_aliases (σ : ℕ → Pose) (source fresh : ℕ) (q : Pose)
    (hfr : fresh ≠ source) :
    Function.update (restPoseSetterRef σ source fresh).1 source q
      ((restPoseSetterRef σ source fresh).2) = σ source ∧
    ∀ r : ℕ, Function.update (initRestPoseRef σ (some r) fresh).1 r q
      ((initRestPoseRef σ (some r) fresh).2) = q := by
  constructor
  · show Function.update (Function.update σ fresh (σ source)) source q fresh = σ source
    rw [Function.update_noteq hfr, Function.update_same]
  · intro r
    exact Function.update_same r q σ

/-- C9 witness: concrete store with source cell 0 and fresh cell 1. -/
theorem c9_witness : (1 : ℕ) ≠ 0 ∧
    (Function.update (restPoseSetterRef (fun _ => Pose.default) 0 1).1 0 poseX
        ((restPoseSetterRef (fun _ => Pose.default) 0 1).2)
        = (fun _ => Pose.default : ℕ → Pose) 0 ∧
      ∀ r : ℕ, Function.update
        (initRestPoseRef (fun _ => Pose.default) (some r) 1).1 r poseX
        ((initRestPoseRef (fun _ => Pose.default) (some r) 1).2) = poseX) :=
  ⟨by decide, c9_setter_copies_init_aliases (fun _ => Pose.default) 0 1 poseX
    (by decide)⟩

/-- C10: `removeKeyframe` performs no negative-frame resolution: on any
joint whose subtree stores only non-negative frame ids, a negative frame
argument with `recursive=True` is a silent no-op on the whole subtree. -/
theorem c10_remove_negative_noop (j : Joint) (f : ℤ) (hf : f < 0)
    (hnn : Joint.subtreeFramesNonneg j = true) :
    j.removeKeyframe f true = j :=
  removeKeyframe_neg_noop_aux f hf j hnn

/-- C10 witness: removing frame -3 recursively from the two-level tree with
frames 3 and 5 changes nothing. -/
theorem c10_witness : ((-3 : ℤ) < 0 ∧ Joint.subtreeFramesNonneg jointT = true) ∧
    jointT.removeKeyframe (-3) true = jointT :=
  ⟨⟨by decide, by decide⟩, c10_remove_negative_noop jointT (-3) (by decide) (by decide)⟩

end Bvhio
